import Mathlib

/-!
# Verification of the Historical Market Returns pipeline

Shallow embedding of the notebook `Historical_Market_Returns.ipynb`.
The notebook builds a monthly value-weighted / equal-weighted U.S. equity
market excess-return series from security-month records (CRSP), delisting
events, and the Fama-French monthly factor file, and compares the
replicated series with the published one.

Modelling conventions:
* pandas numeric columns that may hold `NaN` are modelled as `Option ℚ`
  (a missing value is `none`); columns that are always present are `ℚ`.
* Dates are normalized by the notebook to month-end granularity and only
  `(year, month)` is ever used downstream (`daten = year*12 + month`,
  join keys, group keys), so a date is modelled as the pair
  `year, month : Int`.
* `pandas.merge(..., how='outer')` sorts the join keys lexicographically;
  the embedding produces the merged frame in that key order, with matched
  rows expanded per key in input order.
* Division is the total division of `ℚ` (`x / 0 = 0`), where pandas
  floating point would produce `inf`/`NaN`; no claim below depends on the
  value produced by a division by zero, only on whether the denominator
  can be zero.
-/

namespace MarketReturns

attribute [local semireducible] Rat.mul Rat.add Rat.sub Rat.inv

/-- A raw CRSP security-month observation (query result of `crspq.msf`
left-joined with `crsp.msenames`), after `pd.to_datetime(...) + MonthEnd(0)`
reduced the date to its `(year, month)`.  `shrcd`/`exchcd` come from the SQL
left join and may be missing; `ret`, `prc`, `shrout` may be missing. -/
structure CrspRow where
  permno : Int
  permco : Int
  year : Int
  month : Int
  shrcd : Option Int
  exchcd : Option Int
  ret : Option ℚ
  prc : Option ℚ
  shrout : Option ℚ
deriving DecidableEq

/-- A raw delisting event (`crspq.msedelist`): the notebook derives the
month-end join date from `dlstdt`, modelled here as `(year, month)`. -/
structure DlRow where
  permno : Int
  year : Int
  month : Int
  dlret : Option ℚ
deriving DecidableEq

/-- A row of the merged frame `stocks = crsp_raw.merge(dlret_raw, how='outer',
on=['permno','date'])` before any fill/derived columns. -/
structure StockRow where
  permno : Int
  year : Int
  month : Int
  shrcd : Option Int
  exchcd : Option Int
  ret : Option ℚ
  prc : Option ℚ
  shrout : Option ℚ
  dlret : Option ℚ
deriving DecidableEq

/-- A merged row after the fill steps and the derived columns:
`ret` is the composed total return, `me = prc * shrout`. -/
structure FilledRow where
  permno : Int
  year : Int
  month : Int
  shrcd : Option Int
  exchcd : Option Int
  ret : ℚ
  prc : ℚ
  shrout : ℚ
  me : ℚ
deriving DecidableEq

/-- A `FilledRow` with the lagged-market-equity column `lme` attached
(`NaN` modelled as `none`). -/
structure LagRow where
  permno : Int
  year : Int
  month : Int
  shrcd : Option Int
  exchcd : Option Int
  ret : ℚ
  prc : ℚ
  shrout : ℚ
  me : ℚ
  lme : Option ℚ
deriving DecidableEq

/-- A row of the analysis panel: the notebook's final
`stocks[['permno','year','month','prc','shrout','lme','ret']].dropna()`.
After `dropna`, `lme` is a plain rational. -/
structure PanelRow where
  permno : Int
  year : Int
  month : Int
  prc : ℚ
  shrout : ℚ
  lme : ℚ
  ret : ℚ
deriving DecidableEq

/-- A row of the Fama-French monthly factor frame `french` after the
notebook's cleaning (float coercions, `(year, month)` extraction). -/
structure FrenchRow where
  year : Int
  month : Int
  mktrf : ℚ
  smb : ℚ
  hml : ℚ
  rf : ℚ
deriving DecidableEq

/-! ## Sorting (`DataFrame.sort_values`) -/

/-- Insert `a` into `l` before the first element `b` with `le a b`. -/
def insertBy (le : α → α → Bool) (a : α) : List α → List α
  | [] => [a]
  | b :: bs => if le a b then a :: b :: bs else b :: insertBy le a bs

/-- Insertion sort; models `DataFrame.sort_values`. -/
def sortBy (le : α → α → Bool) : List α → List α
  | [] => []
  | a :: as => insertBy le a (sortBy le as)

/-- Lexicographic comparison of `(year, month)` keys. -/
def lex2 (a b : Int × Int) : Bool :=
  a.1 < b.1 || (a.1 == b.1 && a.2 ≤ b.2)

/-- Lexicographic comparison of `(permno, year, month)` keys. -/
def lex3 (a b : Int × Int × Int) : Bool :=
  a.1 < b.1 || (a.1 == b.1 && lex2 a.2 b.2)

/-- Sort key of a CRSP row: `['permno','date']`. -/
def CrspRow.key (r : CrspRow) : Int × Int × Int := (r.permno, r.year, r.month)

/-- Sort key of a delisting row: `['permno','dlstdt']` (month-end). -/
def DlRow.key (r : DlRow) : Int × Int × Int := (r.permno, r.year, r.month)

/-! ## Panel cleaning (notebook cell "Clean crsp_raw data / Clean dlret_raw data") -/

/-- Models `crsp_raw = crsp_raw.sort_values(['permno','date'])` followed by
`crsp_raw['prc'] = np.absolute(crsp_raw['prc'])` (absolute value of a
missing price is still missing). -/
def cleanCrsp (l : List CrspRow) : List CrspRow :=
  (sortBy (fun a b => lex3 a.key b.key) l).map fun r =>
    { r with prc := r.prc.map (fun p => |p|) }

/-- Models `dlret_raw = dlret_raw.sort_values(['permno','dlstdt'])`. -/
def cleanDl (l : List DlRow) : List DlRow :=
  sortBy (fun a b => lex3 a.key b.key) l

/-! ## Outer merge (`crsp_raw.merge(dlret_raw[['permno','date','dlret']],
how='outer', on=['permno','date'])`) -/

/-- A CRSP row with no matching delisting event: `dlret` is `NaN`. -/
def leftOnly (c : CrspRow) : StockRow :=
  ⟨c.permno, c.year, c.month, c.shrcd, c.exchcd, c.ret, c.prc, c.shrout, none⟩

/-- A CRSP row matched with a delisting event. -/
def bothSides (c : CrspRow) (d : DlRow) : StockRow :=
  ⟨c.permno, c.year, c.month, c.shrcd, c.exchcd, c.ret, c.prc, c.shrout, d.dlret⟩

/-- A delisting event with no matching CRSP observation: every CRSP column
is `NaN`. -/
def rightOnly (d : DlRow) : StockRow :=
  ⟨d.permno, d.year, d.month, none, none, none, none, none, d.dlret⟩

/-- The union of the `(permno, year, month)` join keys, sorted
lexicographically as pandas does for an outer merge. -/
def mergeKeys (cs : List CrspRow) (ds : List DlRow) : List (Int × Int × Int) :=
  sortBy lex3 (cs.map CrspRow.key ++ ds.map DlRow.key).dedup

/-- Full outer merge on `['permno','date']`: one block per join key (keys
sorted lexicographically), matched keys expanded as the product of the
matching rows of both sides. -/
def outerMerge (cs : List CrspRow) (ds : List DlRow) : List StockRow :=
  (mergeKeys cs ds).flatMap fun k =>
    let cMatch := cs.filter fun c => c.key == k
    let dMatch := ds.filter fun d => d.key == k
    if cMatch.isEmpty then dMatch.map rightOnly
    else if dMatch.isEmpty then cMatch.map leftOnly
    else cMatch.flatMap fun c => dMatch.map (bothSides c)

/-! ## Fill steps on the merged frame -/

/-- Models `stocks['dlret'] = stocks['dlret'].fillna(0)`. -/
def fillDlret (l : List StockRow) : List StockRow :=
  l.map fun r => { r with dlret := some (r.dlret.getD 0) }

/-- Models `stocks['shrcd'] = stocks['shrcd'].ffill()`: a global forward fill over
the whole merged frame, carrying the last non-missing value seen so far
(`last`), with no grouping by `permno`. -/
def ffillShrcd (last : Option Int) : List StockRow → List StockRow
  | [] => []
  | r :: rs =>
    let v := match r.shrcd with
      | some a => some a
      | none => last
    { r with shrcd := v } :: ffillShrcd v rs

/-- Models `stocks['exchcd'] = stocks['exchcd'].ffill()`: the same global forward fill
for the exchange code. -/
def ffillExchcd (last : Option Int) : List StockRow → List StockRow
  | [] => []
  | r :: rs =>
    let v := match r.exchcd with
      | some a => some a
      | none => last
    { r with exchcd := v } :: ffillExchcd v rs

/-- Models `stocks['ret'] = (1 + stocks['ret']) * (1 + stocks['dlret']) - 1`, with
the preceding `fillna(0)` of both columns folded in: a missing plain return
or a missing delisting return counts as `0`. -/
def totalRet (ret dlret : Option ℚ) : ℚ :=
  (1 + ret.getD 0) * (1 + dlret.getD 0) - 1

/-- The remaining fill and derived-column steps on one merged row:
`ret`/`prc`/`shrout` filled with `0`, `me = prc * shrout`, and the total
return composed with the delisting return. -/
def enrich (r : StockRow) : FilledRow :=
  let prc0 := r.prc.getD 0
  let shrout0 := r.shrout.getD 0
  { permno := r.permno, year := r.year, month := r.month,
    shrcd := r.shrcd, exchcd := r.exchcd,
    ret := totalRet r.ret r.dlret,
    prc := prc0, shrout := shrout0, me := prc0 * shrout0 }

/-- Sort key of a filled row: `['permno','date']`. -/
def FilledRow.key (r : FilledRow) : Int × Int × Int := (r.permno, r.year, r.month)

/-- Models `stocks = stocks.sort_values(by=['permno','date'])` before the lag
computation. -/
def sortStocks (l : List FilledRow) : List FilledRow :=
  sortBy (fun a b => lex3 a.key b.key) l

/-! ## Lagged market equity -/

/-- Models `stocks['daten'] = stocks['date'].dt.year*12 + stocks['date'].dt.month`. -/
def daten (r : FilledRow) : Int := r.year * 12 + r.month

/-- Copy a filled row and attach an `lme` value. -/
def toLagRow (r : FilledRow) (v : Option ℚ) : LagRow :=
  ⟨r.permno, r.year, r.month, r.shrcd, r.exchcd, r.ret, r.prc, r.shrout, r.me, v⟩

/-- Drop the `lme` column again. -/
def LagRow.base (r : LagRow) : FilledRow :=
  ⟨r.permno, r.year, r.month, r.shrcd, r.exchcd, r.ret, r.prc, r.shrout, r.me⟩

/-- One pass over the sorted frame computing, per row,
`IsValidLag = (daten.diff(1) == 1)` masked to `False` where
`permno.diff(1) != 0` (in particular at the first row, where both diffs are
`NaN`), and `lme = stocks[['permno','me']].groupby('permno').shift(1)`
masked to `NaN` where `IsValidLag` is false.  `prev` is the immediately
preceding row; `lastMe` records, per `permno`, the most recent `me` seen
(the group-by shift). -/
def attachLagGo (prev : Option FilledRow) (lastMe : List (Int × ℚ)) :
    List FilledRow → List LagRow
  | [] => []
  | r :: rs =>
    let okDiff := match prev with
      | some p => daten r == daten p + 1
      | none => false
    let okPermno := match prev with
      | some p => r.permno == p.permno
      | none => false
    let gshift := lastMe.lookup r.permno
    let v := if okDiff && okPermno then gshift else none
    toLagRow r v :: attachLagGo (some r) ((r.permno, r.me) :: lastMe) rs

/-- The full lag-attachment step over the sorted frame. -/
def attachLag (l : List FilledRow) : List LagRow :=
  attachLagGo none [] l

/-! ## Filter and reshape -/

/-- The share-class / exchange filter:
`((shrcd == 10) | (shrcd == 11)) & ((exchcd == 1) | (exchcd == 2) | (exchcd == 3))`.
A missing code compares unequal to every number, as in pandas. -/
def keepRow (r : LagRow) : Bool :=
  ((r.shrcd == some 10) || (r.shrcd == some 11)) &&
    ((r.exchcd == some 1) || (r.exchcd == some 2) || (r.exchcd == some 3))

/-- Models `stocks = stocks[((shrcd == 10) | (shrcd == 11)) & (...)]`. -/
def filterPanel (l : List LagRow) : List LagRow :=
  l.filter keepRow

/-- Projection to the final schema
`['permno','year','month','prc','shrout','lme','ret']`; the row survives the
subsequent `dropna()` exactly when `lme` is present (every other retained
column was already filled). -/
def toPanelRow (r : LagRow) : Option PanelRow :=
  r.lme.map fun v => ⟨r.permno, r.year, r.month, r.prc, r.shrout, v, r.ret⟩

/-- Models `stocks = stocks[[...]]` followed by `stocks = stocks.dropna()`. -/
def dropNA (l : List LagRow) : List PanelRow :=
  l.filterMap toPanelRow

/-! ## The composed panel-construction pipeline -/

/-- The merged frame after `fillna(0)` of `dlret` and the two global
forward fills, in the order of the notebook. -/
def mergedStocks (crsp : List CrspRow) (dl : List DlRow) : List StockRow :=
  ffillExchcd none (ffillShrcd none (fillDlret (outerMerge (cleanCrsp crsp) (cleanDl dl))))

/-- The merged frame with fills, total return, and market equity. -/
def enrichedStocks (crsp : List CrspRow) (dl : List DlRow) : List FilledRow :=
  (mergedStocks crsp dl).map enrich

/-- The enriched frame re-sorted by `['permno','date']` with `lme` attached. -/
def laggedStocks (crsp : List CrspRow) (dl : List DlRow) : List LagRow :=
  attachLag (sortStocks (enrichedStocks crsp dl))

/-- The analysis panel: filtered, projected, `dropna()`-ed. -/
def analysisPanel (crsp : List CrspRow) (dl : List DlRow) : List PanelRow :=
  dropNA (filterPanel (laggedStocks crsp dl))

/-! ## Monthly aggregation -/

/-- Models `Series.mean()`: sum divided by length. -/
def seriesMean (xs : List ℚ) : ℚ :=
  xs.sum / (xs.length : ℚ)

/-- Models `this_stocks = stocks[(stocks['year'] == year) & (stocks['month'] == month)]`. -/
def monthRows (panel : List PanelRow) (y m : Int) : List PanelRow :=
  panel.filter fun r => r.year == y && r.month == m

/-- One row of the aggregated frame `monthly_returns`. -/
structure MonthlyRow where
  year : Int
  month : Int
  vw : ℚ
  ew : ℚ
  lagmv : ℚ
deriving DecidableEq

/-- The `(year, month)` key of a Fama-French row. -/
def ymKey (f : FrenchRow) : Int × Int := (f.year, f.month)

/-- The `(year, month)` key of an analysis-panel row. -/
def pmKey (r : PanelRow) : Int × Int := (r.year, r.month)

/-- The `(year, month)` key of an aggregated row. -/
def mrKey (r : MonthlyRow) : Int × Int := (r.year, r.month)

/-- The body of the aggregation loop for one `(year, month)`:
`rf = french[(year, month)]['rf'].iloc[0]` (a missing month would raise,
modelled by `none`), `start_value = this_stocks['lme'].sum()`,
`end_value = (this_stocks['lme']*(1 + this_stocks['ret'])).sum()`,
`value_monthly_return = (end_value - start_value)/start_value - rf`,
`equal_monthly_return = this_stocks['ret'].mean() - rf`. -/
def monthAggRow (panel : List PanelRow) (fr : List FrenchRow) (k : Int × Int) :
    Option MonthlyRow :=
  match (fr.filter fun f => f.year == k.1 && f.month == k.2).head? with
  | none => none
  | some f =>
    let rows := monthRows panel k.1 k.2
    let startValue := (rows.map (·.lme)).sum
    let endValue := (rows.map fun r => r.lme * (1 + r.ret)).sum
    some ⟨k.1, k.2, (endValue - startValue) / startValue - f.rf,
      seriesMean (rows.map (·.ret)) - f.rf, startValue⟩

/-- Models `french[['year','month']].drop_duplicates().sort_values(['year','month'])`. -/
def french_date (fr : List FrenchRow) : List (Int × Int) :=
  sortBy lex2 (fr.map ymKey).dedup

/-- Models `stocks[['year','month']].drop_duplicates().sort_values(['year','month'])`. -/
def stock_date (panel : List PanelRow) : List (Int × Int) :=
  sortBy lex2 (panel.map pmKey).dedup

/-- Models `date = french_date.merge(stock_date, how='inner', on=['year','month'])`:
both key frames are duplicate-free, so the inner merge keeps the left keys
that also occur on the right, in left order. -/
def dateList (fr : List FrenchRow) (panel : List PanelRow) : List (Int × Int) :=
  (french_date fr).filter fun k => decide (k ∈ stock_date panel)

/-- The aggregation loop over the retained months; `none` models an aborted
run (the `iloc[0]` lookup raising on a month missing from `french`). -/
def aggLoop (panel : List PanelRow) (fr : List FrenchRow) :
    List (Int × Int) → Option (List MonthlyRow)
  | [] => some []
  | k :: ks =>
    match monthAggRow panel fr k, aggLoop panel fr ks with
    | some r, some rs => some (r :: rs)
    | _, _ => none

/-- The aggregated frame `monthly_returns`. -/
def monthly_returns (panel : List PanelRow) (fr : List FrenchRow) :
    Option (List MonthlyRow) :=
  aggLoop panel fr (dateList fr panel)

/-! ## Comparison with the reference series -/

/-- A row of `both = monthly_returns.merge(french, how='inner',
on=['year','month'])`. -/
structure BothRow where
  year : Int
  month : Int
  vw : ℚ
  ew : ℚ
  lagmv : ℚ
  mktrf : ℚ
  smb : ℚ
  hml : ℚ
  rf : ℚ
deriving DecidableEq

/-- The inner merge of the aggregated frame with the factor frame: left rows
in order, each expanded by its matching right rows. -/
def bothMerge (mr : List MonthlyRow) (fr : List FrenchRow) : List BothRow :=
  mr.flatMap fun a =>
    (fr.filter fun f => f.year == a.year && f.month == a.month).map fun f =>
      ⟨a.year, a.month, a.vw, a.ew, a.lagmv, f.mktrf, f.smb, f.hml, f.rf⟩

/-- Models `Series.var()` with the pandas default `ddof=1`: squared deviations from
the mean divided by `n - 1` (the sample, not population, variance). -/
def sampleVar (xs : List ℚ) : ℚ :=
  (xs.map fun x => (x - seriesMean xs) ^ 2).sum / ((xs.length : ℚ) - 1)

/-- Models `Series.std()`: the square root of the sample variance. -/
noncomputable def sampleStd (xs : List ℚ) : ℝ :=
  Real.sqrt ((sampleVar xs : ℚ) : ℝ)

/-- Source line `french_mean = 1200*both['mktrf'].mean()`. -/
def french_mean (b : List BothRow) : ℚ :=
  1200 * seriesMean (b.map (·.mktrf))

/-- Source line `french_std = 100*np.sqrt(12)*both['mktrf'].std()`. -/
noncomputable def french_std (b : List BothRow) : ℝ :=
  100 * Real.sqrt 12 * sampleStd (b.map (·.mktrf))

/-- Source line `french_SR = french_mean/french_std`. -/
noncomputable def french_SR (b : List BothRow) : ℝ :=
  (french_mean b : ℝ) / french_std b

/-- Source line `replicated_mean = 1200*both['MktRF-VW'].mean()`. -/
def replicated_mean (b : List BothRow) : ℚ :=
  1200 * seriesMean (b.map (·.vw))

/-- Source line `replicated_std = 100*np.sqrt(12)*both['MktRF-VW'].std()`. -/
noncomputable def replicated_std (b : List BothRow) : ℝ :=
  100 * Real.sqrt 12 * sampleStd (b.map (·.vw))

/-- Source line `replicated_SR = replicated_mean/replicated_std`. -/
noncomputable def replicated_SR (b : List BothRow) : ℝ :=
  (replicated_mean b : ℝ) / replicated_std b

/-! ## Specification-side definitions

These restate, in the spec's words, the properties the refinement claims
compare the code against. -/

/-- Spec-side lag column, tail part: the entry for a row whose immediately
preceding row is `p` is the preceding row's market equity exactly when the
security id is unchanged and the month index advances by one; otherwise the
lag is undefined. -/
def lmeSpecGo (p : FilledRow) : List FilledRow → List (Option ℚ)
  | [] => []
  | r :: rs =>
    (if r.permno = p.permno ∧ daten r = daten p + 1 then some p.me else none) :: lmeSpecGo r rs

/-- Spec-side lag column for the whole (pre-sorted) frame: the very first
row has no predecessor, so its lag is undefined. -/
def lmeSpec : List FilledRow → List (Option ℚ)
  | [] => []
  | r :: rs => none :: lmeSpecGo r rs

/-- Spec-side description of a forward fill: the last non-missing value in
the list, or the incoming carry when the list holds no value. -/
def lastCarry (last : Option Int) (l : List (Option Int)) : Option Int :=
  l.foldl (fun acc x => match x with | some a => some a | none => acc) last

/-- The fields of a merged row other than the two forward-filled code
columns. -/
def StockRow.core (r : StockRow) :
    Int × Int × Int × Option ℚ × Option ℚ × Option ℚ × Option ℚ :=
  (r.permno, r.year, r.month, r.ret, r.prc, r.shrout, r.dlret)

/-- The price and shares-outstanding columns, as a pair. -/
def StockRow.ps (r : StockRow) : Option ℚ × Option ℚ := (r.prc, r.shrout)

/-! ## Concrete inputs used by counterexamples and witnesses -/

/-- One security-month for permno 1 with both codes present. -/
def exCrspA : List CrspRow :=
  [⟨1, 1, 2000, 1, some 10, some 1, some 0, some 5, some 100⟩]

/-- One delisting event for a different security, permno 2, which has no
CRSP observation at all (so its merged row has every CRSP column missing). -/
def exDlB : List DlRow :=
  [⟨2, 2000, 1, some (-1/2)⟩]

/-- Two adjacent months of permno 1 with missing price and missing shares
outstanding (both are fill-defaulted to 0, so market equity is 0). -/
def exCrspZ : List CrspRow :=
  [⟨1, 1, 2000, 1, some 10, some 1, some 0, none, none⟩,
   ⟨1, 1, 2000, 2, some 10, some 1, some 0, none, none⟩]

/-- Two reference months, 2000-01 and 2000-02. -/
def exFrenchZ : List FrenchRow :=
  [⟨2000, 1, 1/100, 0, 0, 1/50⟩, ⟨2000, 2, 1/100, 0, 0, 1/50⟩]

/-- The analysis panel built from `exCrspZ` and no delisting events. -/
def exPanelZ : List PanelRow :=
  analysisPanel exCrspZ []

/-- A single security-month whose price is negative (a bid/ask midpoint
marker) and whose shares-outstanding field is negative. -/
def exCrspNeg : List CrspRow :=
  [⟨1, 1, 2000, 1, some 10, some 1, some 0, some (-2), some (-3)⟩]

/-- A two-constituent month, used to instantiate aggregation theorems. -/
def panelW : List PanelRow :=
  [⟨1, 2000, 2, 1, 1, 5, 0⟩, ⟨2, 2000, 2, 2, 1, 3, 1⟩]

/-- The same two-constituent month with the rows swapped. -/
def panelWP : List PanelRow :=
  [⟨2, 2000, 2, 2, 1, 3, 1⟩, ⟨1, 2000, 2, 1, 1, 5, 0⟩]

/-- A single reference month with a zero risk-free rate. -/
def frW : List FrenchRow :=
  [⟨2000, 2, 0, 0, 0, 0⟩]

/-! ## Shared lemmas -/

/-- Inserting into a list is a permutation of consing. -/
lemma insertBy_perm (le : α → α → Bool) (a : α) (l : List α) :
    (insertBy le a l).Perm (a :: l) := by
  induction l with
  | nil => exact List.Perm.refl _
  | cons b bs ih =>
    simp only [insertBy]
    split
    · exact List.Perm.refl _
    · exact (ih.cons b).trans (List.Perm.swap a b bs)

/-- Sorting is a permutation of the input. -/
lemma sortBy_perm (le : α → α → Bool) (l : List α) : (sortBy le l).Perm l := by
  induction l with
  | nil => exact List.Perm.refl _
  | cons a as ih => exact (insertBy_perm le a (sortBy le as)).trans (ih.cons a)

/-- Attaching a lag value and dropping it again recovers the row. -/
lemma toLagRow_base (r : FilledRow) (v : Option ℚ) : (toLagRow r v).base = r := rfl

/-- In the lag loop, once the accumulator's head records the preceding
row's `(permno, me)`, the computed lag column is the spec-side one. -/
lemma attachLagGo_map_lme (l : List FilledRow) :
    ∀ (p : FilledRow) (acc : List (Int × ℚ)),
      (attachLagGo (some p) ((p.permno, p.me) :: acc) l).map (·.lme) = lmeSpecGo p l := by
  induction l with
  | nil => intro p acc; rfl
  | cons r rs ih =>
    intro p acc
    simp only [attachLagGo, lmeSpecGo, List.map_cons, ih r ((p.permno, p.me) :: acc)]
    congr 1
    show (if (daten r == daten p + 1) && (r.permno == p.permno) then
        List.lookup r.permno ((p.permno, p.me) :: acc) else none) = _
    by_cases h1 : r.permno = p.permno
    · by_cases h2 : daten r = daten p + 1
      · simp [h1, h2, List.lookup]
      · simp [h1, h2]
    · simp [h1]

/-- The lag loop leaves every other column of every row unchanged. -/
lemma attachLagGo_map_base (l : List FilledRow) :
    ∀ (prev : Option FilledRow) (acc : List (Int × ℚ)),
      (attachLagGo prev acc l).map LagRow.base = l := by
  induction l with
  | nil => intro prev acc; rfl
  | cons r rs ih =>
    intro prev acc
    simp only [attachLagGo, List.map_cons, ih, toLagRow_base]

/-- The computed lag column coincides with the spec-side lag column. -/
lemma attachLag_map_lme (l : List FilledRow) :
    (attachLag l).map (·.lme) = lmeSpec l := by
  cases l with
  | nil => rfl
  | cons r rs =>
    show (attachLagGo none [] (r :: rs)).map (·.lme) = none :: lmeSpecGo r rs
    simp only [attachLagGo, List.map_cons]
    exact congrArg (none :: ·) (attachLagGo_map_lme rs r [])

/-- The lag attachment preserves all the original columns. -/
lemma attachLag_map_base (l : List FilledRow) :
    (attachLag l).map LagRow.base = l :=
  attachLagGo_map_base l none []

/-- Every defined spec-side lag value is the market equity of some row of
the input frame. -/
lemma lmeSpecGo_mem : ∀ (p : FilledRow) (l : List FilledRow) (v : ℚ),
    some v ∈ lmeSpecGo p l → ∃ q ∈ p :: l, v = q.me := by
  intro p l
  induction l generalizing p with
  | nil => intro v h; cases h
  | cons r rs ih =>
    intro v h
    rcases List.mem_cons.mp h with h1 | h2
    · by_cases hc : r.permno = p.permno ∧ daten r = daten p + 1
      · rw [if_pos hc] at h1
        exact ⟨p, List.mem_cons_self p _, (Option.some.injEq _ _ ▸ h1).symm ▸ rfl⟩
      · rw [if_neg hc] at h1
        cases h1
    · obtain ⟨q, hq, hv⟩ := ih r v h2
      exact ⟨q, List.mem_cons_of_mem p hq, hv⟩

/-- Every defined lag value in the attached frame is the market equity of
some row of the input frame. -/
lemma attachLag_lme_me {l : List FilledRow} {x : LagRow} (hx : x ∈ attachLag l) {v : ℚ}
    (hv : x.lme = some v) : ∃ q ∈ l, v = q.me := by
  have hmem : some v ∈ (attachLag l).map (·.lme) := by
    rw [List.mem_map]; exact ⟨x, hx, hv⟩
  rw [attachLag_map_lme] at hmem
  cases l with
  | nil => cases hmem
  | cons r rs =>
    rcases List.mem_cons.mp hmem with h1 | h2
    · cases h1
    · obtain ⟨q, hq, hval⟩ := lmeSpecGo_mem r rs v h2
      exact ⟨q, hq, hval⟩

/-! ## C1 -/

/-- C1: in the enriched panel (sorted by security then date), the lag
column computed by the notebook (`IsValidLag` masking of the grouped
shift) equals the spec-side lag column: a row's lagged market value is
defined iff the immediately preceding row has the same `permno` and a
month index `year*12 + month` exactly one smaller, in which case it equals
that preceding row's market equity; the first row overall and the first
row of every security get an undefined lag.  The second conjunct checks
that the lag pass leaves every other column unchanged, so rows correspond
positionally. -/
theorem lag_defined_iff_adjacent_same_security (l : List FilledRow) :
    (attachLag l).map (·.lme) = lmeSpec l ∧ (attachLag l).map LagRow.base = l :=
  ⟨attachLag_map_lme l, attachLag_map_base l⟩

/-! ## C3 -/

/-- C3: the total return is `(1 + ret) * (1 + dlret) - 1` with missing
values defaulted to `0`; a zero (or missing) delisting return reproduces
the plain return exactly, and a missing plain return yields the delisting
return exactly.  The last conjunct is the spec's end-to-end scenario:
a delisting return of `-1/2` with a missing plain return gives total
return `-1/2`. -/
theorem total_return_composition :
    (∀ r : Option ℚ, totalRet r (some 0) = r.getD 0 ∧ totalRet r none = r.getD 0)
    ∧ (∀ d : Option ℚ, totalRet none d = d.getD 0)
    ∧ totalRet none (some (-1/2)) = -1/2 := by
  refine ⟨fun r => ⟨?_, ?_⟩, fun d => ?_, ?_⟩ <;> simp [totalRet]

/-! ## C4 -/

/-- C4: for every month key, the aggregation loop body returns exactly the
spec formulas, computed over exactly that month's analysis-panel rows: the
value-weighted excess return is
`(Σ lme*(1+ret) - Σ lme) / Σ lme - rf` and the equal-weighted excess
return is the mean of `ret` minus `rf`, with `rf` taken from the first
matching reference row (and no output when the month is missing from the
reference frame). -/
theorem aggregation_formulas (panel : List PanelRow) (fr : List FrenchRow) (y m : Int) :
    monthAggRow panel fr (y, m) =
      ((fr.filter fun f => f.year == y && f.month == m).head?).map (fun f =>
        { year := y, month := m,
          vw := (((monthRows panel y m).map fun r => r.lme * (1 + r.ret)).sum
                  - ((monthRows panel y m).map (·.lme)).sum)
                / ((monthRows panel y m).map (·.lme)).sum - f.rf,
          ew := ((monthRows panel y m).map (·.ret)).sum
                / (((monthRows panel y m).length : ℚ)) - f.rf,
          lagmv := ((monthRows panel y m).map (·.lme)).sum }) := by
  cases h : (fr.filter fun f => f.year == y && f.month == m).head? with
  | none => simp [monthAggRow, h]
  | some f => simp [monthAggRow, h, seriesMean]

/-! ## C6 -/

/-- C6: the share-class / exchange filter is idempotent: filtering an
already-filtered panel returns it unchanged, for every input panel. -/
theorem share_exchange_filter_idempotent (l : List LagRow) :
    filterPanel (filterPanel l) = filterPanel l := by
  simp only [filterPanel, List.filter_filter]
  congr 1
  funext r
  exact Bool.and_self (keepRow r)

/-! ## C2 -/

/-- The row at position `i` after the share-class forward fill carries the
last non-missing `shrcd` at or before `i`, regardless of `permno`. -/
lemma ffillShrcd_getElem (l : List StockRow) :
    ∀ (last : Option Int) (i : Nat), i < l.length →
      (ffillShrcd last l)[i]?.map (·.shrcd)
        = some (lastCarry last ((l.take (i+1)).map (·.shrcd))) := by
  induction l with
  | nil => intro last i h; cases h
  | cons r rs ih =>
    intro last i h
    cases i with
    | zero =>
      cases hs : r.shrcd <;> simp [ffillShrcd, hs, lastCarry]
    | succ j =>
      have hj : j < rs.length := by simpa using h
      simp only [ffillShrcd, List.getElem?_cons_succ, List.take_succ_cons, List.map_cons]
      rw [ih _ j hj]
      cases hs : r.shrcd <;> simp [lastCarry, hs]

/-- The row at position `i` after the exchange-code forward fill carries
the last non-missing `exchcd` at or before `i`, regardless of `permno`. -/
lemma ffillExchcd_getElem (l : List StockRow) :
    ∀ (last : Option Int) (i : Nat), i < l.length →
      (ffillExchcd last l)[i]?.map (·.exchcd)
        = some (lastCarry last ((l.take (i+1)).map (·.exchcd))) := by
  induction l with
  | nil => intro last i h; cases h
  | cons r rs ih =>
    intro last i h
    cases i with
    | zero =>
      cases hs : r.exchcd <;> simp [ffillExchcd, hs, lastCarry]
    | succ j =>
      have hj : j < rs.length := by simpa using h
      simp only [ffillExchcd, List.getElem?_cons_succ, List.take_succ_cons, List.map_cons]
      rw [ih _ j hj]
      cases hs : r.exchcd <;> simp [lastCarry, hs]

/-- The share-class fill does not touch the exchange-code column. -/
lemma ffillShrcd_map_exchcd (l : List StockRow) :
    ∀ last, (ffillShrcd last l).map (·.exchcd) = l.map (·.exchcd) := by
  induction l with
  | nil => intro last; rfl
  | cons r rs ih => intro last; simp only [ffillShrcd, List.map_cons, ih]

/-- The exchange-code fill does not touch the share-class column. -/
lemma ffillExchcd_map_shrcd (l : List StockRow) :
    ∀ last, (ffillExchcd last l).map (·.shrcd) = l.map (·.shrcd) := by
  induction l with
  | nil => intro last; rfl
  | cons r rs ih => intro last; simp only [ffillExchcd, List.map_cons, ih]

/-- The share-class fill leaves every non-code column unchanged. -/
lemma ffillShrcd_map_core (l : List StockRow) :
    ∀ last, (ffillShrcd last l).map StockRow.core = l.map StockRow.core := by
  induction l with
  | nil => intro last; rfl
  | cons r rs ih => intro last; simp only [ffillShrcd, List.map_cons, ih]; rfl

/-- The exchange-code fill leaves every non-code column unchanged. -/
lemma ffillExchcd_map_core (l : List StockRow) :
    ∀ last, (ffillExchcd last l).map StockRow.core = l.map StockRow.core := by
  induction l with
  | nil => intro last; rfl
  | cons r rs ih => intro last; simp only [ffillExchcd, List.map_cons, ih]; rfl

/-- The forward fills preserve the length of the frame. -/
lemma ffill_length (l : List StockRow) (last1 last2 : Option Int) :
    (ffillExchcd last2 (ffillShrcd last1 l)).length = l.length := by
  have h1 : (ffillShrcd last1 l).length = l.length := by
    have := congrArg List.length (ffillShrcd_map_exchcd l last1)
    simpa using this
  have h2 : (ffillExchcd last2 (ffillShrcd last1 l)).length = (ffillShrcd last1 l).length := by
    have := congrArg List.length (ffillExchcd_map_shrcd (ffillShrcd last1 l) last2)
    simpa using this
  rw [h2, h1]

/-- C2 counterexample: with one permno-1 observation carrying share class
10 / exchange 1 and one permno-2 delisting event with no CRSP observation
(hence missing codes), the merged-and-filled frame gives the permno-2 row
share class 10 and exchange code 1 — codes originating from permno 1.
This refutes the claim that a row never receives a code from a different
security: the notebook's `ffill()` is global, not per-security. -/
theorem crossfill_counterexample :
    (mergedStocks exCrspA exDlB).map (fun r => (r.permno, r.shrcd, r.exchcd))
      = [(1, some 10, some 1), (2, some 10, some 1)]
    ∧ (∀ d ∈ exDlB, d.permno = 2)
    ∧ (∀ c ∈ exCrspA, c.permno = 1 ∧ c.shrcd = some 10 ∧ c.exchcd = some 1) := by
  refine ⟨by decide, by decide, by decide⟩

/-- C2 amended: after the merge, a missing share class or exchange code is
filled with the most recent non-missing value of that column at or before
the row in the merged frame's global row order, regardless of the row's
security; every other column is left unchanged.  (A row whose own security
has no earlier non-missing code can therefore inherit a code from a
different security, as the counterexample shows.) -/
theorem ffill_carries_last_code_globally (l : List StockRow) (i : Nat) (h : i < l.length) :
    (ffillExchcd none (ffillShrcd none l))[i]?.map (·.shrcd)
        = some (lastCarry none ((l.take (i+1)).map (·.shrcd)))
    ∧ (ffillExchcd none (ffillShrcd none l))[i]?.map (·.exchcd)
        = some (lastCarry none ((l.take (i+1)).map (·.exchcd)))
    ∧ (ffillExchcd none (ffillShrcd none l)).map StockRow.core = l.map StockRow.core := by
  have hlen1 : (ffillShrcd none l).length = l.length := by
    have := congrArg List.length (ffillShrcd_map_exchcd l none)
    simpa using this
  refine ⟨?_, ?_, ?_⟩
  · have hmap := ffillExchcd_map_shrcd (ffillShrcd none l) none
    have h1 : (List.map (fun x => x.shrcd) (ffillExchcd none (ffillShrcd none l)))[i]?
        = (List.map (fun x => x.shrcd) (ffillShrcd none l))[i]? := by rw [hmap]
    rw [List.getElem?_map, List.getElem?_map] at h1
    rw [h1, ffillShrcd_getElem l none i h]
  · have htake : ((ffillShrcd none l).take (i+1)).map (·.exchcd)
        = (l.take (i+1)).map (·.exchcd) := by
      rw [List.map_take, List.map_take, ffillShrcd_map_exchcd]
    rw [ffillExchcd_getElem (ffillShrcd none l) none i (by rw [hlen1]; exact h), htake]
  · rw [ffillExchcd_map_core, ffillShrcd_map_core]

/-! ## C5 -/

/-- Month keys of the deduplicated, sorted reference key frame are exactly
the month keys of the reference frame. -/
lemma mem_french_date {fr : List FrenchRow} {k : Int × Int} :
    k ∈ french_date fr ↔ k ∈ fr.map ymKey := by
  unfold french_date
  rw [(sortBy_perm lex2 _).mem_iff, List.mem_dedup]

/-- Month keys of the deduplicated, sorted panel key frame are exactly the
month keys of the analysis panel. -/
lemma mem_stock_date {panel : List PanelRow} {k : Int × Int} :
    k ∈ stock_date panel ↔ k ∈ panel.map pmKey := by
  unfold stock_date
  rw [(sortBy_perm lex2 _).mem_iff, List.mem_dedup]

/-- A month key survives the inner merge of the key frames exactly when it
occurs in both inputs. -/
lemma mem_dateList {fr : List FrenchRow} {panel : List PanelRow} {k : Int × Int} :
    k ∈ dateList fr panel ↔ (k ∈ fr.map ymKey ∧ k ∈ panel.map pmKey) := by
  unfold dateList
  rw [List.mem_filter, mem_french_date, decide_eq_true_eq, mem_stock_date]

/-- The merged key list is duplicate-free. -/
lemma dateList_nodup (fr : List FrenchRow) (panel : List PanelRow) :
    (dateList fr panel).Nodup :=
  List.Nodup.filter _
    (((sortBy_perm lex2 _).nodup_iff).mpr (List.nodup_dedup _))

/-- The aggregation loop body labels its output row with the month key it
was called on. -/
lemma monthAggRow_key {panel : List PanelRow} {fr : List FrenchRow} {k : Int × Int}
    {r : MonthlyRow} (h : monthAggRow panel fr k = some r) : mrKey r = k := by
  unfold monthAggRow at h
  cases hh : (fr.filter fun f => f.year == k.1 && f.month == k.2).head? with
  | none => rw [hh] at h; cases h
  | some f => rw [hh] at h; cases h; rfl

/-- The aggregation loop body succeeds on every month key present in the
reference frame (the risk-free lookup finds a row). -/
lemma monthAggRow_isSome {panel : List PanelRow} {fr : List FrenchRow} {k : Int × Int}
    (h : k ∈ fr.map ymKey) : (monthAggRow panel fr k).isSome = true := by
  obtain ⟨f, hf, hk⟩ := List.mem_map.mp h
  unfold monthAggRow
  cases hh : (fr.filter fun g => g.year == k.1 && g.month == k.2).head? with
  | some g => rfl
  | none =>
    rw [List.head?_eq_none_iff] at hh
    exfalso
    have hmem : f ∈ fr.filter fun g => g.year == k.1 && g.month == k.2 := by
      rw [List.mem_filter]
      refine ⟨hf, ?_⟩
      have h1 : f.year = k.1 := by rw [← hk]; rfl
      have h2 : f.month = k.2 := by rw [← hk]; rfl
      simp [h1, h2]
    rw [hh] at hmem
    cases hmem

/-- When the loop body succeeds on every key, the loop returns a frame
whose month keys are exactly the input keys, in order. -/
lemma aggLoop_eq_some (panel : List PanelRow) (fr : List FrenchRow) :
    ∀ ks : List (Int × Int), (∀ k ∈ ks, (monthAggRow panel fr k).isSome = true) →
      ∃ out, aggLoop panel fr ks = some out ∧ out.map mrKey = ks := by
  intro ks
  induction ks with
  | nil => exact fun _ => ⟨[], rfl, rfl⟩
  | cons k ks ih =>
    intro h
    obtain ⟨r, hr⟩ := Option.isSome_iff_exists.mp (h k (List.mem_cons_self k ks))
    obtain ⟨out, hout, hkeys⟩ := ih fun kk hkk => h kk (List.mem_cons_of_mem _ hkk)
    refine ⟨r :: out, ?_, ?_⟩
    · unfold aggLoop
      rw [hr, hout]
    · rw [List.map_cons, hkeys, monthAggRow_key hr]

/-- C5: the aggregation runs without error (returns a frame rather than
aborting on the risk-free lookup), its month keys are duplicate-free — one
row per retained month — and a month key is retained iff it occurs both in
the reference frame and in the analysis panel.  Moreover every row of the
compared frame (the inner merge with the reference frame) carries a month
key present in both inputs, so a month present in only one input appears
in neither output. -/
theorem month_retained_iff_in_both_inputs (fr : List FrenchRow) (panel : List PanelRow)
    (k : Int × Int) :
    ∃ out, monthly_returns panel fr = some out
      ∧ (out.map mrKey).Nodup
      ∧ (k ∈ out.map mrKey ↔ (k ∈ fr.map ymKey ∧ k ∈ panel.map pmKey))
      ∧ ∀ b ∈ bothMerge out fr,
          (b.year, b.month) ∈ fr.map ymKey ∧ (b.year, b.month) ∈ panel.map pmKey := by
  obtain ⟨out, hout, hkeys⟩ := aggLoop_eq_some panel fr (dateList fr panel)
    fun kk hkk => monthAggRow_isSome (mem_dateList.mp hkk).1
  refine ⟨out, hout, ?_, ?_, ?_⟩
  · rw [hkeys]
    exact dateList_nodup fr panel
  · rw [hkeys]
    exact mem_dateList
  · intro b hb
    obtain ⟨a, ha, hb2⟩ := List.mem_flatMap.mp hb
    obtain ⟨f, hf, hfb⟩ := List.mem_map.mp hb2
    have hk : (b.year, b.month) = mrKey a := by rw [← hfb]; rfl
    have hmem : mrKey a ∈ out.map mrKey := List.mem_map.mpr ⟨a, ha, rfl⟩
    rw [hkeys] at hmem
    rw [hk]
    exact mem_dateList.mp hmem

/-- C5, instantiated: month 2000-01 is present in the reference frame but
has no qualifying securities (every permno-1 first month is dropped for
lack of a lag), so it is retained in neither output, and the run does not
abort. -/
theorem month_retained_iff_in_both_inputs_witness :
    ∃ out, monthly_returns exPanelZ exFrenchZ = some out
      ∧ (out.map mrKey).Nodup
      ∧ ((2000, 1) ∈ out.map mrKey ↔
          ((2000, 1) ∈ exFrenchZ.map ymKey ∧ (2000, 1) ∈ exPanelZ.map pmKey))
      ∧ ∀ b ∈ bothMerge out exFrenchZ,
          (b.year, b.month) ∈ exFrenchZ.map ymKey ∧ (b.year, b.month) ∈ exPanelZ.map pmKey :=
  month_retained_iff_in_both_inputs exFrenchZ exPanelZ (2000, 1)

/-! ## C7 -/

/-- A list of nonnegative rationals containing a positive element has a
positive sum. -/
lemma sum_pos_of_mem_pos {xs : List ℚ} (h0 : ∀ x ∈ xs, 0 ≤ x) {x : ℚ}
    (hx : x ∈ xs) (hxpos : 0 < x) : 0 < xs.sum := by
  induction xs with
  | nil => cases hx
  | cons a as ih =>
    rw [List.sum_cons]
    rcases List.mem_cons.mp hx with rfl | hmem
    · have h2 : (0:ℚ) ≤ as.sum :=
        List.sum_nonneg fun y hy => h0 y (List.mem_cons_of_mem _ hy)
      linarith
    · have ha : (0:ℚ) ≤ a := h0 a (List.mem_cons_self _ _)
      have h2 := ih (fun y hy => h0 y (List.mem_cons_of_mem _ hy)) hmem
      linarith

/-- C7 counterexample: starting from raw inputs with two adjacent months
of one security whose price and shares outstanding are missing (both
fill-defaulted to 0), month 2000-02 is retained in the aggregated output
with a total lagged market value of exactly 0 — the value-weighted
computation divides by zero for a retained month, so the degenerate
branch is reachable.  (The rational embedding returns 0 for the division;
pandas floating point would produce NaN.) -/
theorem zero_denominator_month_counterexample :
    monthly_returns exPanelZ exFrenchZ = some [⟨2000, 2, -1/50, -1/50, 0⟩]
    ∧ ((monthRows exPanelZ 2000 2).map (·.lme)).sum = 0
    ∧ exPanelZ ≠ [] := by
  refine ⟨by decide, by decide, by decide⟩

/-- C7 amended: a retained month's total lagged market value need not be
nonzero (see the counterexample); what does hold is that whenever every
constituent of the month has nonnegative lagged market value and at least
one has positive lagged market value, the aggregated row's total lagged
market value — the denominator of the value-weighted return — is positive,
hence nonzero. -/
theorem denominator_pos_of_pos_constituent (panel : List PanelRow) (fr : List FrenchRow)
    (k : Int × Int) (row : MonthlyRow)
    (hagg : monthAggRow panel fr k = some row)
    (hnn : ∀ r ∈ monthRows panel k.1 k.2, 0 ≤ r.lme)
    (hpos : ∃ r ∈ monthRows panel k.1 k.2, 0 < r.lme) :
    0 < row.lagmv ∧ row.lagmv ≠ 0 := by
  have hlag : row.lagmv = ((monthRows panel k.1 k.2).map (·.lme)).sum := by
    unfold monthAggRow at hagg
    cases hh : (fr.filter fun f => f.year == k.1 && f.month == k.2).head? with
    | none => rw [hh] at hagg; cases hagg
    | some f => rw [hh] at hagg; cases hagg; rfl
  obtain ⟨r, hr, hrpos⟩ := hpos
  have hsum : 0 < ((monthRows panel k.1 k.2).map (·.lme)).sum := by
    refine sum_pos_of_mem_pos ?_ (List.mem_map.mpr ⟨r, hr, rfl⟩) hrpos
    intro x hxm
    obtain ⟨q, hq, rfl⟩ := List.mem_map.mp hxm
    exact hnn q hq
  rw [hlag]
  exact ⟨hsum, ne_of_gt hsum⟩

/-- C7 amended, instantiated on a two-constituent month with positive
weights: the denominator is `8 > 0`. -/
theorem denominator_pos_of_pos_constituent_witness :
    0 < (⟨2000, 2, 3/8, 1/2, 8⟩ : MonthlyRow).lagmv
    ∧ (⟨2000, 2, 3/8, 1/2, 8⟩ : MonthlyRow).lagmv ≠ 0 :=
  denominator_pos_of_pos_constituent panelW frW (2000, 2) ⟨2000, 2, 3/8, 1/2, 8⟩
    (by decide) (by decide) (by decide)

/-! ## C8 -/

/-- C8: for each of the two aligned monthly series (the reference
market-minus-riskfree column and the replicated value-weighted column),
the annualized mean is the monthly mean times exactly 1200, the annualized
volatility is the sample standard deviation — squared deviations from the
mean divided by `n - 1`, not `n` — times `100 * √12`, and the annualized
Sharpe ratio is the annualized mean divided by the annualized volatility.
The two closed conjuncts pin the conventions down numerically: the sample
variance of `[1, 3]` is `2` (the population variance would be `1`), and
the spec's scenario series `[0.01, -0.02, 0.03, 0, 0.015]` has annualized
mean `1200 × mean = 8.4`. -/
theorem annualized_statistics_formulas (b : List BothRow) :
    ((french_mean b : ℝ)
        = 1200 * ((((b.map (·.mktrf)).sum : ℚ) : ℝ) / (((b.map (·.mktrf)).length : ℚ) : ℝ))
      ∧ french_std b
        = Real.sqrt (((((b.map (·.mktrf)).map fun x =>
              (x - seriesMean (b.map (·.mktrf))) ^ 2).sum
            / (((b.map (·.mktrf)).length : ℚ) - 1) : ℚ) : ℝ)) * (100 * Real.sqrt 12)
      ∧ french_SR b = (french_mean b : ℝ) / french_std b)
    ∧ ((replicated_mean b : ℝ)
        = 1200 * ((((b.map (·.vw)).sum : ℚ) : ℝ) / (((b.map (·.vw)).length : ℚ) : ℝ))
      ∧ replicated_std b
        = Real.sqrt (((((b.map (·.vw)).map fun x =>
              (x - seriesMean (b.map (·.vw))) ^ 2).sum
            / (((b.map (·.vw)).length : ℚ) - 1) : ℚ) : ℝ)) * (100 * Real.sqrt 12)
      ∧ replicated_SR b = (replicated_mean b : ℝ) / replicated_std b)
    ∧ sampleVar [(1 : ℚ), 3] = 2
    ∧ 1200 * seriesMean [(1 : ℚ)/100, -1/50, 3/100, 0, 3/200] = 42/5 := by
  refine ⟨⟨?_, ?_, rfl⟩, ⟨?_, ?_, rfl⟩, by decide, by decide⟩
  · unfold french_mean seriesMean
    push_cast
    ring
  · unfold french_std sampleStd sampleVar
    ring
  · unfold replicated_mean seriesMean
    push_cast
    ring
  · unfold replicated_std sampleStd sampleVar
    ring

/-! ## C9 -/

/-- Normal form of the aggregation loop body. -/
lemma monthAggRow_eq (panel : List PanelRow) (fr : List FrenchRow) (k : Int × Int) :
    monthAggRow panel fr k =
      ((fr.filter fun f => f.year == k.1 && f.month == k.2).head?).map (fun f =>
        ⟨k.1, k.2,
          (((monthRows panel k.1 k.2).map fun r => r.lme * (1 + r.ret)).sum
              - ((monthRows panel k.1 k.2).map (·.lme)).sum)
            / ((monthRows panel k.1 k.2).map (·.lme)).sum - f.rf,
          seriesMean ((monthRows panel k.1 k.2).map (·.ret)) - f.rf,
          ((monthRows panel k.1 k.2).map (·.lme)).sum⟩) := by
  cases hh : (fr.filter fun f => f.year == k.1 && f.month == k.2).head? with
  | none => simp [monthAggRow, hh]
  | some f => simp [monthAggRow, hh]

/-- The mean of a series is invariant under permutation. -/
lemma seriesMean_perm {xs ys : List ℚ} (h : xs.Perm ys) : seriesMean xs = seriesMean ys := by
  unfold seriesMean
  rw [h.sum_eq, h.length_eq]

/-- C9: monthly aggregation is order-independent.  First, permuting the
analysis panel (in particular the rows within any month) leaves the
computed value-weighted and equal-weighted returns of every month
unchanged.  Second, permuting the iteration order over month keys permutes
the computed rows accordingly, changing no row.  Third, the computation
for a month reads only that month's panel rows and that month's risk-free
rate: any two inputs agreeing on those agree on the output row. -/
theorem monthly_aggregation_order_independent :
    (∀ (panel panelP : List PanelRow) (fr : List FrenchRow) (k : Int × Int),
        panel.Perm panelP → monthAggRow panel fr k = monthAggRow panelP fr k)
    ∧ (∀ (panel : List PanelRow) (fr : List FrenchRow) (ks ksP : List (Int × Int)),
        ks.Perm ksP →
          (ks.map (monthAggRow panel fr)).Perm (ksP.map (monthAggRow panel fr)))
    ∧ (∀ (panel panelP : List PanelRow) (fr frP : List FrenchRow) (k : Int × Int),
        monthRows panel k.1 k.2 = monthRows panelP k.1 k.2 →
        ((fr.filter fun f => f.year == k.1 && f.month == k.2).head?).map (·.rf)
          = ((frP.filter fun f => f.year == k.1 && f.month == k.2).head?).map (·.rf) →
        monthAggRow panel fr k = monthAggRow panelP frP k) := by
  refine ⟨?_, ?_, ?_⟩
  · intro panel panelP fr k hp
    have hrows : (monthRows panel k.1 k.2).Perm (monthRows panelP k.1 k.2) := hp.filter _
    have h1 : ((monthRows panel k.1 k.2).map (·.lme)).sum
        = ((monthRows panelP k.1 k.2).map (·.lme)).sum := (hrows.map _).sum_eq
    have h2 : ((monthRows panel k.1 k.2).map fun r => r.lme * (1 + r.ret)).sum
        = ((monthRows panelP k.1 k.2).map fun r => r.lme * (1 + r.ret)).sum :=
      (hrows.map _).sum_eq
    have h3 : seriesMean ((monthRows panel k.1 k.2).map (·.ret))
        = seriesMean ((monthRows panelP k.1 k.2).map (·.ret)) :=
      seriesMean_perm (hrows.map _)
    rw [monthAggRow_eq, monthAggRow_eq]
    simp only [h1, h2, h3]
  · intro panel fr ks ksP h
    exact h.map _
  · intro panel panelP fr frP k hrows hrf
    rw [monthAggRow_eq, monthAggRow_eq, hrows]
    cases hf : (fr.filter fun f => f.year == k.1 && f.month == k.2).head? with
    | none =>
      rw [hf] at hrf
      cases hg : (frP.filter fun f => f.year == k.1 && f.month == k.2).head? with
      | none => rfl
      | some g => rw [hg] at hrf; cases hrf
    | some f =>
      rw [hf] at hrf
      cases hg : (frP.filter fun f => f.year == k.1 && f.month == k.2).head? with
      | none => rw [hg] at hrf; cases hrf
      | some g =>
        rw [hg] at hrf
        have : f.rf = g.rf := by
          simpa using hrf
        simp [this]

/-- C9, instantiated: swapping the two constituents of the month 2000-02
changes neither computed return. -/
theorem monthly_aggregation_order_independent_witness :
    monthAggRow panelW frW (2000, 2) = monthAggRow panelWP frW (2000, 2)
    ∧ ([((2000 : Int), (1 : Int)), (2000, 2)].map (monthAggRow panelW frW)).Perm
        ([((2000 : Int), (2 : Int)), (2000, 1)].map (monthAggRow panelW frW)) :=
  ⟨monthly_aggregation_order_independent.1 panelW panelWP frW (2000, 2) (by decide),
    monthly_aggregation_order_independent.2.1 panelW frW _ _ (by decide)⟩

/-! ## C10 -/

/-- Every row of the cleaned CRSP frame is an input row with the price
replaced by its absolute value and every other column unchanged. -/
lemma mem_cleanCrsp {l : List CrspRow} {c : CrspRow} (hc : c ∈ cleanCrsp l) :
    ∃ c0 ∈ l, c = { c0 with prc := c0.prc.map fun p => |p| } := by
  unfold cleanCrsp at hc
  obtain ⟨c0, hc0, hceq⟩ := List.mem_map.mp hc
  exact ⟨c0, (sortBy_perm _ l).mem_iff.mp hc0, hceq.symm⟩

/-- Every row of the outer merge takes its price and shares-outstanding
columns either from some left-side (CRSP) row or — for delisting-only
rows — has them missing. -/
lemma mem_outerMerge_prc_shrout {cs : List CrspRow} {ds : List DlRow} {r : StockRow}
    (h : r ∈ outerMerge cs ds) :
    (∃ c ∈ cs, r.prc = c.prc ∧ r.shrout = c.shrout) ∨ (r.prc = none ∧ r.shrout = none) := by
  unfold outerMerge at h
  obtain ⟨k, hk, hr⟩ := List.mem_flatMap.mp h
  simp only at hr
  by_cases h1 : (cs.filter fun c => c.key == k).isEmpty
  · rw [if_pos h1] at hr
    obtain ⟨d, hd, hdr⟩ := List.mem_map.mp hr
    right
    rw [← hdr]
    exact ⟨rfl, rfl⟩
  · rw [if_neg h1] at hr
    by_cases h2 : (ds.filter fun d => d.key == k).isEmpty
    · rw [if_pos h2] at hr
      obtain ⟨c, hcf, hcr⟩ := List.mem_map.mp hr
      left
      refine ⟨c, (List.mem_filter.mp hcf).1, ?_, ?_⟩ <;> rw [← hcr] <;> rfl
    · rw [if_neg h2] at hr
      obtain ⟨c, hcf, hr2⟩ := List.mem_flatMap.mp hr
      obtain ⟨d, hdf, hdr⟩ := List.mem_map.mp hr2
      left
      refine ⟨c, (List.mem_filter.mp hcf).1, ?_, ?_⟩ <;> rw [← hdr] <;> rfl

/-- The delisting-return fill does not touch price or shares. -/
lemma fillDlret_map_ps (l : List StockRow) :
    (fillDlret l).map StockRow.ps = l.map StockRow.ps := by
  induction l with
  | nil => rfl
  | cons r rs ih => simp only [fillDlret, List.map_cons, List.map_map] at ih ⊢; rw [ih]; rfl

/-- The share-class fill does not touch price or shares. -/
lemma ffillShrcd_map_ps (l : List StockRow) :
    ∀ last, (ffillShrcd last l).map StockRow.ps = l.map StockRow.ps := by
  induction l with
  | nil => intro last; rfl
  | cons r rs ih => intro last; simp only [ffillShrcd, List.map_cons, ih]; rfl

/-- The exchange-code fill does not touch price or shares. -/
lemma ffillExchcd_map_ps (l : List StockRow) :
    ∀ last, (ffillExchcd last l).map StockRow.ps = l.map StockRow.ps := by
  induction l with
  | nil => intro last; rfl
  | cons r rs ih => intro last; simp only [ffillExchcd, List.map_cons, ih]; rfl

/-- Every row of the merged-and-filled frame takes its price (already in
absolute value) and shares outstanding from some raw CRSP row, or has both
missing. -/
lemma mergedStocks_prc_shrout {crsp : List CrspRow} {dl : List DlRow} {r : StockRow}
    (h : r ∈ mergedStocks crsp dl) :
    (∃ c ∈ crsp, r.prc = c.prc.map (fun p => |p|) ∧ r.shrout = c.shrout)
    ∨ (r.prc = none ∧ r.shrout = none) := by
  have hps : r.ps ∈ (outerMerge (cleanCrsp crsp) (cleanDl dl)).map StockRow.ps := by
    have h1 : r.ps ∈ (mergedStocks crsp dl).map StockRow.ps :=
      List.mem_map.mpr ⟨r, h, rfl⟩
    unfold mergedStocks at h1
    rw [ffillExchcd_map_ps, ffillShrcd_map_ps, fillDlret_map_ps] at h1
    exact h1
  obtain ⟨r0, hr0, hr0ps⟩ := List.mem_map.mp hps
  have hprc : r.prc = r0.prc := by
    have := congrArg Prod.fst hr0ps
    exact this.symm
  have hsho : r.shrout = r0.shrout := by
    have := congrArg Prod.snd hr0ps
    exact this.symm
  rcases mem_outerMerge_prc_shrout hr0 with ⟨c, hc, hcp, hcs⟩ | ⟨hp0, hs0⟩
  · obtain ⟨c0, hc0, hceq⟩ := mem_cleanCrsp hc
    left
    refine ⟨c0, hc0, ?_, ?_⟩
    · rw [hprc, hcp, hceq]
    · rw [hsho, hcs, hceq]
  · right
    rw [hprc, hsho]
    exact ⟨hp0, hs0⟩

/-- If every present shares-outstanding value in the raw CRSP frame is
nonnegative, every enriched row has nonnegative market equity. -/
lemma enrich_me_nonneg {crsp : List CrspRow} {dl : List DlRow}
    (hsh : ∀ c ∈ crsp, ∀ v, c.shrout = some v → 0 ≤ v)
    {f : FilledRow} (hf : f ∈ enrichedStocks crsp dl) : 0 ≤ f.me := by
  unfold enrichedStocks at hf
  obtain ⟨r, hr, hrf⟩ := List.mem_map.mp hf
  have hme : f.me = r.prc.getD 0 * r.shrout.getD 0 := by rw [← hrf]; rfl
  rw [hme]
  rcases mergedStocks_prc_shrout hr with ⟨c, hc, hprc, hsho⟩ | ⟨hprc, hsho⟩
  · apply mul_nonneg
    · rw [hprc]
      cases c.prc with
      | none => simp
      | some p => simp [abs_nonneg p]
    · rw [hsho]
      cases hcs : c.shrout with
      | none => simp
      | some v => simpa using hsh c hc v hcs
  · rw [hprc, hsho]
    simp

/-- If every present shares-outstanding value is nonnegative, every row of
the analysis panel has nonnegative lagged market value. -/
lemma analysisPanel_lme_nonneg {crsp : List CrspRow} {dl : List DlRow}
    (hsh : ∀ c ∈ crsp, ∀ v, c.shrout = some v → 0 ≤ v)
    {p : PanelRow} (hp : p ∈ analysisPanel crsp dl) : 0 ≤ p.lme := by
  unfold analysisPanel dropNA at hp
  obtain ⟨x, hx, hx2⟩ := List.mem_filterMap.mp hp
  unfold toPanelRow at hx2
  cases hlme : x.lme with
  | none => rw [hlme] at hx2; cases hx2
  | some v =>
    rw [hlme] at hx2
    have hpl : p.lme = v := by
      cases hx2
      rfl
    have hxlag : x ∈ laggedStocks crsp dl := (List.mem_filter.mp hx).1
    unfold laggedStocks at hxlag
    obtain ⟨q, hq, hv⟩ := attachLag_lme_me hxlag hlme
    have hqe : q ∈ enrichedStocks crsp dl := by
      unfold sortStocks at hq
      exact (sortBy_perm _ _).mem_iff.mp hq
    rw [hpl, hv]
    exact enrich_me_nonneg hsh hqe

/-- C10 counterexample: the pipeline does not guarantee nonnegative market
values.  A raw row with price `-2` (made `2` by the absolute value) and
shares outstanding `-3` — never sign-normalized by the notebook — yields
market equity `-6 < 0` in the enriched panel. -/
theorem negative_market_value_counterexample :
    (enrichedStocks exCrspNeg []).map (·.me) = [-6]
    ∧ ¬ (∀ f ∈ enrichedStocks exCrspNeg [], 0 ≤ f.me) := by
  refine ⟨by decide, by decide⟩

/-- C10 amended: provided every present shares-outstanding value in the
raw CRSP input is nonnegative (missing ones default to 0), every market
value of the enriched panel is nonnegative — the price is used in absolute
value — and hence every lagged market value in the analysis panel and
every month's total lagged market value are nonnegative as well. -/
theorem market_values_nonneg_of_nonneg_shrout (crsp : List CrspRow) (dl : List DlRow)
    (hsh : ∀ c ∈ crsp, ∀ v, c.shrout = some v → 0 ≤ v) :
    (∀ f ∈ enrichedStocks crsp dl, 0 ≤ f.me)
    ∧ (∀ p ∈ analysisPanel crsp dl, 0 ≤ p.lme)
    ∧ (∀ y m : Int, 0 ≤ ((monthRows (analysisPanel crsp dl) y m).map (·.lme)).sum) := by
  refine ⟨fun f hf => enrich_me_nonneg hsh hf, fun p hp => analysisPanel_lme_nonneg hsh hp,
    fun y m => ?_⟩
  apply List.sum_nonneg
  intro x hx
  obtain ⟨q, hq, hqx⟩ := List.mem_map.mp hx
  rw [← hqx]
  exact analysisPanel_lme_nonneg hsh (List.mem_filter.mp hq).1

/-- C10 amended, instantiated: the zero-market-value input has no negative
shares outstanding, so the total lagged market value of month 2000-02 is
nonnegative. -/
theorem market_values_nonneg_of_nonneg_shrout_witness :
    0 ≤ ((monthRows (analysisPanel exCrspZ []) 2000 2).map (·.lme)).sum :=
  (market_values_nonneg_of_nonneg_shrout exCrspZ []
    (by
      intro c hc v hv
      rcases List.mem_cons.mp hc with rfl | hc2
      · cases hv
      · rcases List.mem_cons.mp hc2 with rfl | hc3
        · cases hv
        · cases hc3)).2.2 2000 2

/-- C2 amended, instantiated at the counterexample input: the permno-2 row
(position 1 of the merged frame) carries the forward-filled codes. -/
theorem ffill_carries_last_code_globally_witness :
    (ffillExchcd none (ffillShrcd none (fillDlret (outerMerge (cleanCrsp exCrspA) (cleanDl exDlB)))))[1]?.map (·.shrcd)
        = some (lastCarry none (((fillDlret (outerMerge (cleanCrsp exCrspA) (cleanDl exDlB))).take 2).map (·.shrcd)))
    ∧ (ffillExchcd none (ffillShrcd none (fillDlret (outerMerge (cleanCrsp exCrspA) (cleanDl exDlB)))))[1]?.map (·.exchcd)
        = some (lastCarry none (((fillDlret (outerMerge (cleanCrsp exCrspA) (cleanDl exDlB))).take 2).map (·.exchcd)))
    ∧ (ffillExchcd none (ffillShrcd none (fillDlret (outerMerge (cleanCrsp exCrspA) (cleanDl exDlB))))).map StockRow.core
        = (fillDlret (outerMerge (cleanCrsp exCrspA) (cleanDl exDlB))).map StockRow.core :=
  ffill_carries_last_code_globally (fillDlret (outerMerge (cleanCrsp exCrspA) (cleanDl exDlB))) 1 (by decide)

end MarketReturns
